import Mathlib

/-!
Verification of the finverify chunking pipeline.

The development shallowly embeds the text-processing core of
`chunk_docs_html_fixed.py` (permissive cleaning policy) and
`src/chunking/chunk_docs_html.py` (aggressive cleaning policy):

* the HTML-entity replacement tables of step 3 of the extractor,
* the per-line retention filters and whitespace-collapsing join of
  steps 4-5 of the extractor (`clean_html_text`),
* the character-window chunker `quick_chunk_text`.

Python strings are modelled as `List Char`.  The `while` loop of
`quick_chunk_text` is modelled by a fuel-indexed interpreter returning
`Option`: `none` means the loop performs more iterations than the
supplied fuel, so termination statements become `isSome` facts and the
infinite loop on invalid configurations is provable as `= none` for all
fuel.  Loop indices are `Int` because the Python `start` variable can
become negative when `overlap > chunk_size`.
-/

/-- Whitespace test covering the ASCII whitespace characters recognized by
the source's uses of `str.strip`, `str.splitlines` and the regex class
`\s` on the texts involved here. -/
def pyIsSpace (c : Char) : Bool :=
  c = ' ' || c = '\t' || c = '\n' || c = '\r' || c = '\x0b' || c = '\x0c'

/-- Removal of trailing whitespace, structurally recursive form. -/
def rstrip : List Char → List Char
  | [] => []
  | c :: r =>
    match rstrip r with
    | [] => if pyIsSpace c then [] else [c]
    | x :: xs => c :: x :: xs

/-- Python `str.strip()`: drop leading and trailing whitespace. -/
def pyStrip (s : List Char) : List Char :=
  rstrip (s.dropWhile pyIsSpace)

/-- Helper for `pySplitlines`; `acc` holds the current line reversed. -/
def pySplitlinesAux : List Char → List Char → List (List Char)
  | [], acc => [acc.reverse]
  | '\r' :: '\n' :: r2, acc =>
    acc.reverse :: (if r2 = [] then [] else pySplitlinesAux r2 [])
  | c :: r, acc =>
    if c = '\n' || c = '\r' then
      acc.reverse :: (if r = [] then [] else pySplitlinesAux r [])
    else
      pySplitlinesAux r (c :: acc)

/-- Python `str.splitlines()` restricted to the line boundaries
`\n`, `\r` and `\r\n`; a trailing line break does not create an empty
final line, and the empty string has no lines. -/
def pySplitlines (s : List Char) : List (List Char) :=
  if s = [] then [] else pySplitlinesAux s []

/-- Helper for `collapseWS`; the flag records whether the previous input
character belonged to a whitespace run already represented in the output. -/
def collapseWSAux : Bool → List Char → List Char
  | _, [] => []
  | prevSpace, c :: r =>
    if pyIsSpace c then
      if prevSpace then collapseWSAux true r else ' ' :: collapseWSAux true r
    else c :: collapseWSAux false r

/-- Python `re.sub(r"\s+", " ", text)`: every maximal whitespace run
becomes a single space. -/
def collapseWS (s : List Char) : List Char :=
  collapseWSAux false s

/-- Normalization of one Python slice index against a length `n`. -/
def pyIdx (n : Nat) (i : Int) : Nat :=
  if i < 0 then ((n : Int) + i).toNat else min i.toNat n

/-- Python slice `s[a:b]`, including the negative-index convention. -/
def pySlice (s : List Char) (a b : Int) : List Char :=
  (s.take (pyIdx s.length b)).drop (pyIdx s.length a)

/-- Helper for `pyReplace`; fuel bounds the scan and is never exhausted
when it starts at the length of the subject string. -/
def pyReplaceAux (pat rep : List Char) : Nat → List Char → List Char
  | _, [] => []
  | 0, s => s
  | fuel + 1, c :: r =>
    if !pat.isEmpty && pat.isPrefixOf (c :: r) then
      rep ++ pyReplaceAux pat rep fuel ((c :: r).drop pat.length)
    else
      c :: pyReplaceAux pat rep fuel r

/-- Python `s.replace(pat, rep)` for a non-empty pattern: replace all
non-overlapping occurrences left to right.  The source only ever calls
`replace` with non-empty literal patterns. -/
def pyReplace (pat rep s : List Char) : List Char :=
  pyReplaceAux pat rep s.length s

/-- Entity replacement table of step 3 of `clean_html_text` in
`chunk_docs_html_fixed.py` (permissive policy), in source order. -/
def entityTablePermissive : List (List Char × List Char) :=
  [ ("&nbsp;".toList, [' ']),
    ("&amp;".toList, ['&']),
    ("&lt;".toList, ['<']),
    ("&gt;".toList, ['>']),
    ("&quot;".toList, [Char.ofNat 34]),
    ("&#8217;".toList, [Char.ofNat 39]),
    ("&#8220;".toList, [Char.ofNat 34]),
    ("&#8221;".toList, [Char.ofNat 34]),
    ("&#x2013;".toList, ['-']),
    ("&#x2014;".toList, ['-']) ]

/-- Entity replacement table of step 4 of `clean_html_text` in
`src/chunking/chunk_docs_html.py` (aggressive policy), in source order;
it lacks the `&#x2014;` em-dash entry of the permissive table. -/
def entityTableAggressive : List (List Char × List Char) :=
  [ ("&nbsp;".toList, [' ']),
    ("&amp;".toList, ['&']),
    ("&lt;".toList, ['<']),
    ("&gt;".toList, ['>']),
    ("&quot;".toList, [Char.ofNat 34]),
    ("&#8217;".toList, [Char.ofNat 39]),
    ("&#8220;".toList, [Char.ofNat 34]),
    ("&#8221;".toList, [Char.ofNat 34]),
    ("&#x2013;".toList, ['-']) ]

/-- Sequential application of a replacement table, as the Python
`for k, v in replacements.items(): text = text.replace(k, v)` loop. -/
def decodeEntities (table : List (List Char × List Char)) (s : List Char) : List Char :=
  table.foldl (fun acc kv => pyReplace kv.1 kv.2 acc) s

/-- Entity decoding of the permissive extractor. -/
def decodeEntitiesPermissive (s : List Char) : List Char :=
  decodeEntities entityTablePermissive s

/-- Entity decoding of the aggressive extractor. -/
def decodeEntitiesAggressive (s : List Char) : List Char :=
  decodeEntities entityTableAggressive s

/-- Count of alphabetic characters, Python `sum(c.isalpha() for c in line)`. -/
def countAlpha (l : List Char) : Nat :=
  l.countP (fun c => c.isAlpha)

/-- Count of digit characters, Python `sum(c.isdigit() for c in line)`. -/
def countDigit (l : List Char) : Nat :=
  l.countP (fun c => c.isDigit)

/-- Count of alphanumeric characters, Python `sum(c.isalnum() for c in line)`. -/
def countAlnum (l : List Char) : Nat :=
  l.countP (fun c => c.isAlphanum)

/-- Line retention test of step 4 in `chunk_docs_html_fixed.py`, applied to an
already stripped line: skip empty lines, lines shorter than 20 characters,
lines with fewer than 3 alphabetic characters, and lines whose alphanumeric
count is below 0.3 of their length.  The float comparison
`alphanumeric < len(line) * 0.3` is modelled as the exact rational
comparison `10 * alphanumeric < 3 * length`, which agrees with the IEEE
double computation at every length arising in the claims. -/
def keepLinePermissive (line : List Char) : Bool :=
  if line.isEmpty then false
  else if line.length < 20 then false
  else if countAlpha line < 3 then false
  else if 10 * countAlnum line < 3 * line.length then false
  else true

/-- Line retention test of step 5 in `src/chunking/chunk_docs_html.py`,
applied to an already stripped line: skip empty lines, skip lines whose
digit count is positive and at least twice `max 1 letters`, skip lines
shorter than 40 characters. -/
def keepLineAggressive (line : List Char) : Bool :=
  if line.isEmpty then false
  else if 0 < countDigit line ∧ 2 * max 1 (countAlpha line) ≤ countDigit line then false
  else if line.length < 40 then false
  else true

/-- Steps 4-5 of `clean_html_text`, shared by both policies: split into
lines, strip each line, keep the lines passing the policy filter, join
with single spaces, collapse whitespace runs and strip the ends. -/
def lineFilterStage (keep : List Char → Bool) (text : List Char) : List Char :=
  pyStrip (collapseWS (List.intercalate [' ']
    (((pySplitlines text).map pyStrip).filter keep)))

/-- Line-filtering stage of the permissive extractor,
`chunk_docs_html_fixed.py` lines 47-78. -/
def cleanLinesPermissive (text : List Char) : List Char :=
  lineFilterStage keepLinePermissive text

/-- Line-filtering stage of the aggressive extractor,
`src/chunking/chunk_docs_html.py` lines 67-89. -/
def cleanLinesAggressive (text : List Char) : List Char :=
  lineFilterStage keepLineAggressive text

/-- Fuel-indexed interpreter of the `while` loop of `quick_chunk_text`;
`none` means the loop needs more iterations than the supplied fuel.
Each iteration slices `text[start:start+chunk_size]`, keeps the slice if
its stripped length exceeds 50, moves `start` to `end - overlap` and
breaks once `end` reaches the text length. -/
def quickChunkAux (text : List Char) (chunk_size overlap : Int) :
    Nat → Int → Option (List (List Char))
  | 0, _ => none
  | fuel + 1, start =>
    if start < (text.length : Int) then
      let e := start + chunk_size
      let ch := pySlice text start e
      if (text.length : Int) ≤ e then
        some (if 50 < (pyStrip ch).length then [ch] else [])
      else
        Option.map (fun rest => if 50 < (pyStrip ch).length then ch :: rest else rest)
          (quickChunkAux text chunk_size overlap fuel (e - overlap))
    else some []

/-- The chunker `quick_chunk_text` of both source files, run with fuel
`text.length + 1`, which suffices for every valid configuration. -/
def quick_chunk_text (text : List Char) (chunk_size overlap : Int) :
    Option (List (List Char)) :=
  quickChunkAux text chunk_size overlap (text.length + 1) 0

/-- Fuel-indexed list of the window start positions visited by the loop of
`quick_chunk_text`. -/
def windowStartsAux (len chunk_size overlap : Int) :
    Nat → Int → Option (List Int)
  | 0, _ => none
  | fuel + 1, start =>
    if start < len then
      let e := start + chunk_size
      if len ≤ e then some [start]
      else
        Option.map (fun rest => start :: rest)
          (windowStartsAux len chunk_size overlap fuel (e - overlap))
    else some []

/-- Window start positions visited by `quick_chunk_text` on `text`. -/
def windowStarts (text : List Char) (chunk_size overlap : Int) : Option (List Int) :=
  windowStartsAux (text.length : Int) chunk_size overlap (text.length + 1) 0

/-- Fuel-indexed list of all windows sliced by the loop of
`quick_chunk_text`, before the trimmed-length filter. -/
def quickWindowsAux (text : List Char) (chunk_size overlap : Int) :
    Nat → Int → Option (List (List Char))
  | 0, _ => none
  | fuel + 1, start =>
    if start < (text.length : Int) then
      let e := start + chunk_size
      let ch := pySlice text start e
      if (text.length : Int) ≤ e then some [ch]
      else
        Option.map (fun rest => ch :: rest)
          (quickWindowsAux text chunk_size overlap fuel (e - overlap))
    else some []

/-- All windows sliced by `quick_chunk_text` on `text`. -/
def quickWindows (text : List Char) (chunk_size overlap : Int) :
    Option (List (List Char)) :=
  quickWindowsAux text chunk_size overlap (text.length + 1) 0

/-- Input of claim C1's failing run: 200 characters chunked with
`chunk_size = 100`, `overlap = 150`. -/
def invalidConfigText : List Char :=
  List.replicate 200 'A'

/-- Input on which two consecutively emitted chunks are separated by a
dropped window: with `chunk_size = 60`, `overlap = 5` the middle window
`text[55:115]` strips to 20 characters and is discarded. -/
def overlapGapText : List Char :=
  List.replicate 55 'A' ++ List.replicate 20 'C' ++
    List.replicate 40 ' ' ++ List.replicate 55 'B'

/-- Two lines sitting exactly on the permissive alnum-ratio boundary:
each line has length 20 and exactly 6 alphanumeric characters, so each
passes the filter, but their space-joined form of length 41 with 12
alphanumeric characters fails it. -/
def ratioBoundaryText : List Char :=
  ("ABCDEF!!!!!!!!!!!!!!\nABCDEF!!!!!!!!!!!!!!").toList

/-- First emitted chunk of `quick_chunk_text overlapGapText 60 5`: the window
`overlapGapText[0:60]`. -/
def gapChunk0 : List Char := List.replicate 55 'A' ++ List.replicate 5 'C'

/-- Second emitted chunk of `quick_chunk_text overlapGapText 60 5`: the window
`overlapGapText[110:170]`; the window between them is dropped. -/
def gapChunk1 : List Char := List.replicate 5 ' ' ++ List.replicate 55 'B'

/-- Whitespace-normal form: every whitespace character is a plain space and no
two consecutive characters are whitespace.  This is the invariant of the
output of `collapseWS`, used to prove the second application of the line
filter stage leaves its own output unchanged. -/
def wsOk : List Char → Bool
  | [] => true
  | [c] => !pyIsSpace c || (c = ' ')
  | c1 :: c2 :: r => (!pyIsSpace c1 || ((c1 = ' ') && !pyIsSpace c2)) && wsOk (c2 :: r)

lemma pyIdx_nonneg (n : Nat) (i : Int) (h : 0 ≤ i) : pyIdx n i = min i.toNat n := by
  rw [pyIdx, if_neg (by omega)]

lemma pySlice_nonneg (t : List Char) (a b : Int) (ha : 0 ≤ a) (hb : 0 ≤ b) :
    pySlice t a b = (t.take b.toNat).drop a.toNat := by
  rw [pySlice, pyIdx_nonneg _ _ ha, pyIdx_nonneg _ _ hb]
  have h1 : t.take (min b.toNat t.length) = t.take b.toNat := by
    rw [List.take_eq_take]; omega
  rw [h1]
  rcases le_or_lt a.toNat t.length with h | h
  · rw [min_eq_left h]
  · have hx : (t.take b.toNat).length ≤ a.toNat := by
      rw [List.length_take]; omega
    have hy : (t.take b.toNat).length ≤ min a.toNat t.length := by
      rw [List.length_take]; omega
    rw [List.drop_eq_nil_of_le hx, List.drop_eq_nil_of_le hy]

lemma pySlice_replicate (n : Nat) (a : Char) (i j : Int) (hi : 0 ≤ i) (hj : 0 ≤ j) :
    pySlice (List.replicate n a) i j = List.replicate (min j.toNat n - i.toNat) a := by
  rw [pySlice_nonneg _ _ _ hi hj, List.take_replicate, List.drop_replicate]

lemma rstrip_replicate (n : Nat) (a : Char) (h : pyIsSpace a = false) :
    rstrip (List.replicate n a) = List.replicate n a := by
  induction n with
  | zero => rfl
  | succ m ih =>
    rw [List.replicate_succ, rstrip, ih]
    cases m with
    | zero => simp [h]
    | succ k => rw [List.replicate_succ]

lemma pyStrip_replicate (n : Nat) (a : Char) (h : pyIsSpace a = false) :
    pyStrip (List.replicate n a) = List.replicate n a := by
  rw [pyStrip]
  cases n with
  | zero => rfl
  | succ m =>
    rw [List.replicate_succ, List.dropWhile_cons_of_neg (by simp [h]),
      ← List.replicate_succ, rstrip_replicate _ _ h]

lemma quickChunkAux_step_mid (t : List Char) (c o : Int) (fuel : Nat) (start : Int)
    (h1 : start < (t.length : Int)) (h2 : start + c < (t.length : Int)) :
    quickChunkAux t c o (fuel + 1) start =
      Option.map (fun rest =>
        if 50 < (pyStrip (pySlice t start (start + c))).length
        then pySlice t start (start + c) :: rest else rest)
        (quickChunkAux t c o fuel (start + c - o)) := by
  rw [quickChunkAux]
  rw [if_pos h1, if_neg (by omega)]

lemma quickChunkAux_step_last (t : List Char) (c o : Int) (fuel : Nat) (start : Int)
    (h1 : start < (t.length : Int)) (h2 : (t.length : Int) ≤ start + c) :
    quickChunkAux t c o (fuel + 1) start =
      some (if 50 < (pyStrip (pySlice t start (start + c))).length
        then [pySlice t start (start + c)] else []) := by
  rw [quickChunkAux]
  rw [if_pos h1, if_pos h2]

lemma quick_chunk_text_replicate_5000 :
    quick_chunk_text (List.replicate 5000 'A') 2048 200 =
      some [List.replicate 2048 'A', List.replicate 2048 'A', List.replicate 1304 'A'] := by
  have hA : pyIsSpace 'A' = false := by decide
  have hlen : (List.replicate 5000 'A').length = 5000 := List.length_replicate 5000 'A'
  have hs0 : pySlice (List.replicate 5000 'A') 0 (0 + 2048) = List.replicate 2048 'A' := by
    rw [pySlice_replicate _ _ _ _ (by norm_num) (by norm_num)]
    congr 1
  have hs1 : pySlice (List.replicate 5000 'A') 1848 (1848 + 2048) = List.replicate 2048 'A' := by
    rw [pySlice_replicate _ _ _ _ (by norm_num) (by norm_num)]
    congr 1
  have hs2 : pySlice (List.replicate 5000 'A') 3696 (3696 + 2048) = List.replicate 1304 'A' := by
    rw [pySlice_replicate _ _ _ _ (by norm_num) (by norm_num)]
    congr 1
  have hlast : quickChunkAux (List.replicate 5000 'A') 2048 200 (4998 + 1) 3696 =
      some [List.replicate 1304 'A'] := by
    rw [quickChunkAux_step_last _ _ _ _ _ (by rw [hlen]; norm_num) (by rw [hlen]; norm_num), hs2,
      pyStrip_replicate _ _ hA]
    rw [if_pos (by rw [List.length_replicate]; norm_num)]
  have hmid : quickChunkAux (List.replicate 5000 'A') 2048 200 (4999 + 1) 1848 =
      some [List.replicate 2048 'A', List.replicate 1304 'A'] := by
    rw [quickChunkAux_step_mid _ _ _ _ _ (by rw [hlen]; norm_num) (by rw [hlen]; norm_num)]
    have h49 : (4999 : Nat) = 4998 + 1 := by norm_num
    have harith : (1848 : Int) + 2048 - 200 = 3696 := by norm_num
    rw [harith, h49, hlast, hs1, pyStrip_replicate _ _ hA]
    simp only [Option.map_some']
    rw [if_pos (by rw [List.length_replicate]; norm_num)]
  have h0 : quickChunkAux (List.replicate 5000 'A') 2048 200 (5000 + 1) 0 =
      some [List.replicate 2048 'A', List.replicate 2048 'A', List.replicate 1304 'A'] := by
    rw [quickChunkAux_step_mid _ _ _ _ _ (by rw [hlen]; norm_num) (by rw [hlen]; norm_num)]
    have h50 : (5000 : Nat) = 4999 + 1 := by norm_num
    have harith : (0 : Int) + 2048 - 200 = 1848 := by norm_num
    rw [harith, h50, hmid, hs0, pyStrip_replicate _ _ hA]
    simp only [Option.map_some']
    rw [if_pos (by rw [List.length_replicate]; norm_num)]
  rw [quick_chunk_text, hlen]
  exact h0

lemma pySlice_length_full (t : List Char) (start c : Int) (h0 : 0 ≤ start) (hc : 0 ≤ c)
    (h2 : start + c ≤ (t.length : Int)) :
    (pySlice t start (start + c)).length = c.toNat := by
  rw [pySlice_nonneg _ _ _ h0 (by omega), List.length_drop, List.length_take]
  omega

lemma pySlice_suffix (t : List Char) (start c : Int) (h0 : 0 ≤ start)
    (h2 : (t.length : Int) ≤ start + c) :
    pySlice t start (start + c) = t.drop start.toNat := by
  rw [pySlice_nonneg _ _ _ h0 (by omega)]
  have h1 : t.take (start + c).toNat = t := List.take_of_length_le (by omega)
  rw [h1]

lemma quickChunkAux_isSome (t : List Char) (c o : Int) (_hc : 0 < c) (ho : 0 ≤ o)
    (hoc : o < c) :
    ∀ (fuel : Nat) (start : Int), ((t.length : Int) - start).toNat < fuel →
      (quickChunkAux t c o fuel start).isSome := by
  intro fuel
  induction fuel with
  | zero => intro start h; omega
  | succ f ih =>
    intro start h
    simp only [quickChunkAux]
    by_cases h1 : start < (t.length : Int)
    · rw [if_pos h1]
      by_cases h2 : (t.length : Int) ≤ start + c
      · rw [if_pos h2]; simp
      · rw [if_neg h2]
        have := ih (start + c - o) (by omega)
        simpa using this
    · rw [if_neg h1]; simp

lemma windowStartsAux_isSome (len c o : Int) (_hc : 0 < c) (ho : 0 ≤ o) (hoc : o < c) :
    ∀ (fuel : Nat) (start : Int), (len - start).toNat < fuel →
      (windowStartsAux len c o fuel start).isSome := by
  intro fuel
  induction fuel with
  | zero => intro start h; omega
  | succ f ih =>
    intro start h
    simp only [windowStartsAux]
    by_cases h1 : start < len
    · rw [if_pos h1]
      by_cases h2 : len ≤ start + c
      · rw [if_pos h2]; simp
      · rw [if_neg h2]
        have := ih (start + c - o) (by omega)
        simpa using this
    · rw [if_neg h1]; simp

lemma quickChunkAux_spec (t : List Char) (c o : Int) (hc : 0 < c) (_ho : 0 ≤ o)
    (hoc : o < c) :
    ∀ (fuel : Nat) (start : Int) (l : List (List Char)), 0 ≤ start →
      quickChunkAux t c o fuel start = some l →
      (∀ ch ∈ l, 50 < (pyStrip ch).length) ∧
      (∀ ch ∈ l.dropLast, ch.length = c.toNat) ∧
      (∀ ch, l.getLast? = some ch → ch.length = c.toNat ∨ ch <:+ t) := by
  intro fuel
  induction fuel with
  | zero => intro start l h0 h; exact absurd h (by simp [quickChunkAux])
  | succ f ih =>
    intro start l h0 h
    simp only [quickChunkAux] at h
    by_cases h1 : start < (t.length : Int)
    · rw [if_pos h1] at h
      by_cases h2 : (t.length : Int) ≤ start + c
      · rw [if_pos h2] at h
        have hsfx : pySlice t start (start + c) = t.drop start.toNat :=
          pySlice_suffix t start c h0 h2
        by_cases hkeep : 50 < (pyStrip (pySlice t start (start + c))).length
        · rw [if_pos hkeep] at h
          obtain rfl : [pySlice t start (start + c)] = l := by injection h
          refine ⟨?_, ?_, ?_⟩
          · intro ch hch
            rw [List.mem_singleton] at hch
            subst hch; exact hkeep
          · intro ch hch
            simp at hch
          · intro ch hch
            rw [List.getLast?_singleton] at hch
            obtain rfl : pySlice t start (start + c) = ch := by injection hch
            right
            rw [hsfx]
            exact List.drop_suffix _ _
        · rw [if_neg hkeep] at h
          obtain rfl : ([] : List (List Char)) = l := by injection h
          refine ⟨by simp, by simp, by simp⟩
      · rw [if_neg h2] at h
        obtain ⟨rest, hrest, hmap⟩ := Option.map_eq_some'.mp h
        have hfull : (pySlice t start (start + c)).length = c.toNat :=
          pySlice_length_full t start c h0 (by omega) (by omega)
        obtain ⟨ha, hb, hcl⟩ := ih (start + c - o) rest (by omega) hrest
        by_cases hkeep : 50 < (pyStrip (pySlice t start (start + c))).length
        · rw [if_pos hkeep] at hmap
          subst hmap
          refine ⟨?_, ?_, ?_⟩
          · intro ch hch
            rcases List.mem_cons.mp hch with rfl | hm
            · exact hkeep
            · exact ha ch hm
          · intro ch hch
            cases rest with
            | nil => simp at hch
            | cons r rs =>
              rw [List.dropLast_cons₂] at hch
              rcases List.mem_cons.mp hch with rfl | hm
              · exact hfull
              · exact hb ch hm
          · intro ch hch
            cases rest with
            | nil =>
              rw [List.getLast?_singleton] at hch
              obtain rfl : pySlice t start (start + c) = ch := by injection hch
              left; exact hfull
            | cons r rs =>
              rw [List.getLast?_cons_cons] at hch
              exact hcl ch hch
        · rw [if_neg hkeep] at hmap
          subst hmap
          exact ⟨ha, hb, hcl⟩
    · rw [if_neg h1] at h
      obtain rfl : ([] : List (List Char)) = l := by injection h
      refine ⟨by simp, by simp, by simp⟩

lemma windowStartsAux_vals (len c o : Int) :
    ∀ (fuel : Nat) (start : Int) (ws : List Int),
      windowStartsAux len c o fuel start = some ws →
      ∀ (i : Nat) (hi : i < ws.length),
        ws.get ⟨i, hi⟩ = start + (i : Int) * (c - o) ∧ ws.get ⟨i, hi⟩ < len := by
  intro fuel
  induction fuel with
  | zero => intro start ws h; exact absurd h (by simp [windowStartsAux])
  | succ f ih =>
    intro start ws h
    simp only [windowStartsAux] at h
    by_cases h1 : start < len
    · rw [if_pos h1] at h
      by_cases h2 : len ≤ start + c
      · rw [if_pos h2] at h
        obtain rfl : [start] = ws := by injection h
        intro i hi
        have hi0 : i = 0 := by simpa using Nat.lt_one_iff.mp (by simpa using hi)
        subst hi0
        exact ⟨by simp, by simpa using h1⟩
      · rw [if_neg h2] at h
        obtain ⟨rest, hrest, hmap⟩ := Option.map_eq_some'.mp h
        subst hmap
        intro i hi
        cases i with
        | zero => exact ⟨by simp, by simpa using h1⟩
        | succ j =>
          have hj : j < rest.length := by simpa using hi
          have := ih (start + c - o) rest hrest j hj
          rw [List.get_cons_succ]
          refine ⟨?_, this.2⟩
          rw [this.1]
          push_cast
          ring
    · rw [if_neg h1] at h
      obtain rfl : ([] : List Int) = ws := by injection h
      intro i hi
      simp at hi

lemma length_rstrip_cons_ge (c : Char) (r : List Char) :
    (rstrip r).length ≤ (rstrip (c :: r)).length := by
  rw [rstrip]
  cases h : rstrip r with
  | nil => simp
  | cons x xs => simp

lemma length_rstrip_cons_mono (c : Char) (x y : List Char)
    (h : (rstrip x).length ≤ (rstrip y).length) :
    (rstrip (c :: x)).length ≤ (rstrip (c :: y)).length := by
  rw [rstrip, rstrip]
  cases hx : rstrip x with
  | nil =>
    cases hy : rstrip y with
    | nil => simp
    | cons b bs => by_cases hs : pyIsSpace c <;> simp [hs]
  | cons a as =>
    cases hy : rstrip y with
    | nil => rw [hx, hy] at h; simp at h
    | cons b bs =>
      rw [hx, hy] at h
      simpa using h

lemma length_rstrip_take_le (r : List Char) :
    ∀ n : Nat, (rstrip (r.take n)).length ≤ (rstrip r).length := by
  induction r with
  | nil => intro n; simp
  | cons c r ih =>
    intro n
    cases n with
    | zero => simp [rstrip]
    | succ m =>
      rw [List.take_succ_cons]
      exact length_rstrip_cons_mono c _ _ (ih m)

lemma length_rstrip_dropWhile_le (s : List Char) :
    (rstrip (s.dropWhile pyIsSpace)).length ≤ (rstrip s).length := by
  induction s with
  | nil => simp
  | cons c r ih =>
    by_cases hs : pyIsSpace c
    · rw [List.dropWhile_cons_of_pos hs]
      exact le_trans ih (length_rstrip_cons_ge c r)
    · rw [List.dropWhile_cons_of_neg (by simp [hs])]

lemma length_pyStrip_cons_ge (c : Char) (r : List Char) :
    (pyStrip r).length ≤ (pyStrip (c :: r)).length := by
  rw [pyStrip, pyStrip]
  by_cases hs : pyIsSpace c
  · rw [List.dropWhile_cons_of_pos hs]
  · rw [List.dropWhile_cons_of_neg (by simp [hs])]
    exact le_trans (length_rstrip_dropWhile_le r) (length_rstrip_cons_ge c r)

lemma length_pyStrip_drop_le (t : List Char) :
    ∀ n : Nat, (pyStrip (t.drop n)).length ≤ (pyStrip t).length := by
  induction t with
  | nil => intro n; simp
  | cons c r ih =>
    intro n
    cases n with
    | zero => simp
    | succ m =>
      rw [List.drop_succ_cons]
      exact le_trans (ih m) (length_pyStrip_cons_ge c r)

lemma length_pyStrip_take_le (t : List Char) :
    ∀ n : Nat, (pyStrip (t.take n)).length ≤ (pyStrip t).length := by
  induction t with
  | nil => intro n; simp
  | cons c r ih =>
    intro n
    cases n with
    | zero => simp [pyStrip, rstrip]
    | succ m =>
      rw [List.take_succ_cons]
      rw [pyStrip, pyStrip]
      by_cases hs : pyIsSpace c
      · rw [List.dropWhile_cons_of_pos hs, List.dropWhile_cons_of_pos hs]
        exact ih m
      · rw [List.dropWhile_cons_of_neg (by simp [hs]),
          List.dropWhile_cons_of_neg (by simp [hs])]
        exact length_rstrip_cons_mono c _ _ (length_rstrip_take_le r m)

lemma length_pyStrip_pySlice_le (t : List Char) (a b : Int) :
    (pyStrip (pySlice t a b)).length ≤ (pyStrip t).length := by
  rw [pySlice]
  exact le_trans (length_pyStrip_drop_le _ _) (length_pyStrip_take_le t _)

lemma quickChunkAux_all_short (t : List Char) (c o : Int)
    (hshort : (pyStrip t).length ≤ 50) :
    ∀ (fuel : Nat) (start : Int) (l : List (List Char)),
      quickChunkAux t c o fuel start = some l → l = [] := by
  intro fuel
  induction fuel with
  | zero => intro start l h; exact absurd h (by simp [quickChunkAux])
  | succ f ih =>
    intro start l h
    simp only [quickChunkAux] at h
    by_cases h1 : start < (t.length : Int)
    · rw [if_pos h1] at h
      have hkeep : ¬ 50 < (pyStrip (pySlice t start (start + c))).length := by
        have := length_pyStrip_pySlice_le t start (start + c)
        omega
      by_cases h2 : (t.length : Int) ≤ start + c
      · rw [if_pos h2, if_neg hkeep] at h
        exact (by injection h : ([] : List (List Char)) = l).symm
      · rw [if_neg h2] at h
        obtain ⟨rest, hrest, hmap⟩ := Option.map_eq_some'.mp h
        rw [if_neg hkeep] at hmap
        subst hmap
        exact ih _ _ hrest
    · rw [if_neg h1] at h
      exact (by injection h : ([] : List (List Char)) = l).symm

lemma quickChunkAux_invalid_none :
    ∀ (fuel : Nat) (start : Int), start ≤ 0 →
      quickChunkAux invalidConfigText 100 150 fuel start = none := by
  have hlen : invalidConfigText.length = 200 := List.length_replicate 200 'A'
  intro fuel
  induction fuel with
  | zero => intro start h; rfl
  | succ f ih =>
    intro start h
    simp only [quickChunkAux]
    rw [if_pos (by omega), if_neg (by omega)]
    rw [ih (start + 100 - 150) (by omega)]
    rfl

lemma slN_take (t : List Char) (a b k : Nat) :
    ((t.take b).drop a).take k = (t.take (min b (a + k))).drop a := by
  rw [List.drop_take, List.drop_take, List.take_take]
  congr 1
  omega

lemma slN_drop (t : List Char) (a b k : Nat) :
    ((t.take b).drop a).drop k = (t.take b).drop (a + k) := by
  rw [List.drop_drop]

lemma pySlice_overlap_eq (t : List Char) (start c o : Int) (h0 : 0 ≤ start)
    (ho : 0 ≤ o) (hoc : o < c) :
    (pySlice t (start + c - o) (start + c - o + c)).take o.toNat =
      (pySlice t start (start + c)).drop (c - o).toNat := by
  rw [pySlice_nonneg _ _ _ (by omega) (by omega), pySlice_nonneg _ _ _ h0 (by omega)]
  rw [slN_take, slN_drop]
  have h1 : min (start + c - o + c).toNat ((start + c - o).toNat + o.toNat) =
      (start + c).toNat := by omega
  have h2 : start.toNat + (c - o).toNat = (start + c - o).toNat := by omega
  rw [h1, h2]

lemma quickWindowsAux_eq_chunk (t : List Char) (c o : Int) :
    ∀ (fuel : Nat) (start : Int) (wsl : List (List Char)),
      quickWindowsAux t c o fuel start = some wsl →
      (∀ w ∈ wsl, 50 < (pyStrip w).length) →
      quickChunkAux t c o fuel start = some wsl := by
  intro fuel
  induction fuel with
  | zero => intro start wsl h; exact absurd h (by simp [quickWindowsAux])
  | succ f ih =>
    intro start wsl h hall
    simp only [quickWindowsAux] at h
    simp only [quickChunkAux]
    by_cases h1 : start < (t.length : Int)
    · rw [if_pos h1] at h ⊢
      by_cases h2 : (t.length : Int) ≤ start + c
      · rw [if_pos h2] at h ⊢
        obtain rfl : [pySlice t start (start + c)] = wsl := by injection h
        rw [if_pos (hall _ (by simp))]
      · rw [if_neg h2] at h ⊢
        obtain ⟨rest, hrest, hmap⟩ := Option.map_eq_some'.mp h
        subst hmap
        rw [ih _ rest hrest (fun w hw => hall w (List.mem_cons_of_mem _ hw))]
        rw [Option.map_some']
        rw [if_pos (hall _ (by simp))]
    · rw [if_neg h1] at h ⊢
      exact h

lemma quickWindowsAux_head (t : List Char) (c o : Int) (fuel : Nat) (start : Int)
    (wsl : List (List Char)) (h : quickWindowsAux t c o fuel start = some wsl)
    (h1 : start < (t.length : Int)) :
    ∃ r, wsl = pySlice t start (start + c) :: r := by
  cases fuel with
  | zero => exact absurd h (by simp [quickWindowsAux])
  | succ f =>
    simp only [quickWindowsAux] at h
    rw [if_pos h1] at h
    by_cases h2 : (t.length : Int) ≤ start + c
    · rw [if_pos h2] at h
      obtain rfl : [pySlice t start (start + c)] = wsl := by injection h
      exact ⟨[], rfl⟩
    · rw [if_neg h2] at h
      obtain ⟨rest, hrest, hmap⟩ := Option.map_eq_some'.mp h
      exact ⟨rest, hmap.symm⟩

lemma quickWindowsAux_overlap (t : List Char) (c o : Int) (ho : 0 ≤ o) (hoc : o < c) :
    ∀ (fuel : Nat) (start : Int) (wsl : List (List Char)), 0 ≤ start →
      quickWindowsAux t c o fuel start = some wsl →
      ∀ (i : Nat) (hi : i + 1 < wsl.length),
        (wsl.get ⟨i + 1, hi⟩).take o.toNat =
          (wsl.get ⟨i, by omega⟩).drop ((c - o).toNat) := by
  intro fuel
  induction fuel with
  | zero => intro start wsl h0 h; exact absurd h (by simp [quickWindowsAux])
  | succ f ih =>
    intro start wsl h0 h
    simp only [quickWindowsAux] at h
    by_cases h1 : start < (t.length : Int)
    · rw [if_pos h1] at h
      by_cases h2 : (t.length : Int) ≤ start + c
      · rw [if_pos h2] at h
        obtain rfl : [pySlice t start (start + c)] = wsl := by injection h
        intro i hi
        simp at hi
      · rw [if_neg h2] at h
        obtain ⟨rest, hrest, hmap⟩ := Option.map_eq_some'.mp h
        subst hmap
        intro i hi
        cases i with
        | zero =>
          have hstart' : start + c - o < (t.length : Int) := by omega
          obtain ⟨r2, hr2⟩ := quickWindowsAux_head t c o f (start + c - o) rest hrest hstart'
          subst hr2
          have := pySlice_overlap_eq t start c o h0 ho hoc
          simpa using this
        | succ j =>
          have hj : j + 1 < rest.length := by simpa using hi
          have := ih (start + c - o) rest (by omega) hrest j hj
          rw [List.get_cons_succ, List.get_cons_succ]
          exact this
    · rw [if_neg h1] at h
      obtain rfl : ([] : List (List Char)) = wsl := by injection h
      intro i hi
      simp at hi

/-- Claim C1 (refuted, code bug): the spec requires `quick_chunk_text` to raise
`ConfigError` before any iteration when `overlap >= chunk_size` or
`chunk_size <= 0`.  The code performs no validation at all: on the
200-character text with `chunk_size = 100`, `overlap = 150` the loop body runs
and the window start moves backward by 50 forever, so the fuel-indexed
interpreter returns `none` for every fuel — the call neither raises nor
terminates. -/
theorem quick_chunk_invalid_config_no_error :
    (∀ fuel : Nat, quickChunkAux invalidConfigText 100 150 fuel 0 = none) ∧
    quick_chunk_text invalidConfigText 100 150 = none := by
  constructor
  · intro fuel
    exact quickChunkAux_invalid_none fuel 0 le_rfl
  · exact quickChunkAux_invalid_none _ 0 le_rfl

/-- Claim C10 (confirmed): for every text and every config with
`0 < chunk_size` and `0 <= overlap < chunk_size`, `quick_chunk_text`
terminates — fuel `length + 1` suffices — and each loop iteration advances
the window start by exactly `chunk_size - overlap`. -/
theorem quick_chunk_terminates (t : List Char) (c o : Int)
    (hc : 0 < c) (ho : 0 ≤ o) (hoc : o < c) :
    (quick_chunk_text t c o).isSome ∧
    ∀ ws, windowStarts t c o = some ws →
      ∀ (i : Nat) (hi : i + 1 < ws.length),
        ws.get ⟨i + 1, hi⟩ = ws.get ⟨i, by omega⟩ + (c - o) := by
  constructor
  · apply quickChunkAux_isSome t c o hc ho hoc
    omega
  · intro ws hws i hi
    have hv := windowStartsAux_vals (t.length : Int) c o (t.length + 1) 0 ws hws
    have h1 := (hv (i + 1) hi).1
    have h2 := (hv i (by omega)).1
    rw [h1, h2]
    push_cast
    ring

/-- Witness for `quick_chunk_terminates` at a concrete valid configuration. -/
theorem quick_chunk_terminates_witness :
    (0 : Int) < 10 ∧ (0 : Int) ≤ 3 ∧ (3 : Int) < 10 ∧
    ((quick_chunk_text (List.replicate 100 'A') 10 3).isSome ∧
    ∀ ws, windowStarts (List.replicate 100 'A') 10 3 = some ws →
      ∀ (i : Nat) (hi : i + 1 < ws.length),
        ws.get ⟨i + 1, hi⟩ = ws.get ⟨i, by omega⟩ + (10 - 3)) :=
  ⟨by decide, by decide, by decide,
    quick_chunk_terminates (List.replicate 100 'A') 10 3 (by decide) (by decide) (by decide)⟩

/-- Claim C2 (confirmed): for every text and valid config the loop visits the
window start positions `0, (c-o), 2*(c-o), ...`, every visited start is
strictly below the text length, every emitted chunk except possibly the last
has length exactly `chunk_size`, and the last emitted chunk either has length
`chunk_size` or is a suffix of the text, i.e. ends exactly at the text
length. -/
theorem quick_chunk_window_layout (t : List Char) (c o : Int)
    (hc : 0 < c) (ho : 0 ≤ o) (hoc : o < c) :
    ∃ l ws, quick_chunk_text t c o = some l ∧ windowStarts t c o = some ws ∧
      (∀ (i : Nat) (hi : i < ws.length), ws.get ⟨i, hi⟩ = (i : Int) * (c - o)) ∧
      (∀ s ∈ ws, s < (t.length : Int)) ∧
      (∀ ch ∈ l.dropLast, ch.length = c.toNat) ∧
      (∀ ch, l.getLast? = some ch → ch.length = c.toNat ∨ ch <:+ t) := by
  obtain ⟨l, hl⟩ := Option.isSome_iff_exists.mp
    (quickChunkAux_isSome t c o hc ho hoc (t.length + 1) 0 (by omega))
  obtain ⟨ws, hws⟩ := Option.isSome_iff_exists.mp
    (windowStartsAux_isSome (t.length : Int) c o hc ho hoc (t.length + 1) 0 (by omega))
  have hvals := windowStartsAux_vals (t.length : Int) c o (t.length + 1) 0 ws hws
  have hspec := quickChunkAux_spec t c o hc ho hoc (t.length + 1) 0 l le_rfl hl
  refine ⟨l, ws, hl, hws, ?_, ?_, hspec.2.1, hspec.2.2⟩
  · intro i hi
    have := (hvals i hi).1
    simpa using this
  · intro s hs
    obtain ⟨⟨i, hi⟩, hg⟩ := List.mem_iff_get.mp hs
    rw [← hg]
    exact (hvals i hi).2

/-- Witness for `quick_chunk_window_layout` at a concrete valid input. -/
theorem quick_chunk_window_layout_witness :
    (0 : Int) < 100 ∧ (0 : Int) ≤ 10 ∧ (10 : Int) < 100 ∧
    (∃ l ws, quick_chunk_text (List.replicate 120 'A') 100 10 = some l ∧
      windowStarts (List.replicate 120 'A') 100 10 = some ws ∧
      (∀ (i : Nat) (hi : i < ws.length), ws.get ⟨i, hi⟩ = (i : Int) * (100 - 10)) ∧
      (∀ s ∈ ws, s < ((List.replicate 120 'A').length : Int)) ∧
      (∀ ch ∈ l.dropLast, ch.length = (100 : Int).toNat) ∧
      (∀ ch, l.getLast? = some ch → ch.length = (100 : Int).toNat ∨
        ch <:+ List.replicate 120 'A')) :=
  ⟨by decide, by decide, by decide,
    quick_chunk_window_layout (List.replicate 120 'A') 100 10
      (by decide) (by decide) (by decide)⟩

/-- Claim C5 (confirmed): under a valid config `quick_chunk_text` never emits
a chunk of trimmed length at most 50, and on any text whose trimmed length is
at most 50 it returns the empty list rather than an error. -/
theorem quick_chunk_min_trimmed_length (t : List Char) (c o : Int)
    (hc : 0 < c) (ho : 0 ≤ o) (hoc : o < c) :
    (∀ l, quick_chunk_text t c o = some l → ∀ ch ∈ l, 50 < (pyStrip ch).length) ∧
    ((pyStrip t).length ≤ 50 → quick_chunk_text t c o = some []) := by
  constructor
  · intro l hl ch hch
    exact (quickChunkAux_spec t c o hc ho hoc (t.length + 1) 0 l le_rfl hl).1 ch hch
  · intro hshort
    obtain ⟨l, hl⟩ := Option.isSome_iff_exists.mp
      (quickChunkAux_isSome t c o hc ho hoc (t.length + 1) 0 (by omega))
    have hnil := quickChunkAux_all_short t c o hshort (t.length + 1) 0 l hl
    rw [hnil] at hl
    exact hl

/-- Witness for `quick_chunk_min_trimmed_length` on a 30-character text. -/
theorem quick_chunk_min_trimmed_length_witness :
    (0 : Int) < 100 ∧ (0 : Int) ≤ 10 ∧ (10 : Int) < 100 ∧
    (pyStrip (List.replicate 30 'A')).length ≤ 50 ∧
    quick_chunk_text (List.replicate 30 'A') 100 10 = some [] :=
  ⟨by decide, by decide, by decide, by decide,
    (quick_chunk_min_trimmed_length (List.replicate 30 'A') 100 10
      (by decide) (by decide) (by decide)).2 (by decide)⟩

/-- Claim C3 (amended): when every window sliced by the loop passes the
trimmed-length filter, the emitted chunks are exactly the windows and each
chunk after the first begins with the last `overlap` characters of the chunk
emitted immediately before it.  The unrestricted claim fails when an
intermediate window is dropped, see the counterexample. -/
theorem quick_chunk_overlap_of_windows_kept (t : List Char) (c o : Int)
    (_hc : 0 < c) (ho : 0 ≤ o) (hoc : o < c) (wsl : List (List Char))
    (hw : quickWindows t c o = some wsl)
    (hall : ∀ w ∈ wsl, 50 < (pyStrip w).length) :
    quick_chunk_text t c o = some wsl ∧
    ∀ (i : Nat) (hi : i + 1 < wsl.length),
      (wsl.get ⟨i + 1, hi⟩).take o.toNat = (wsl.get ⟨i, by omega⟩).drop ((c - o).toNat) := by
  constructor
  · exact quickWindowsAux_eq_chunk t c o (t.length + 1) 0 wsl hw hall
  · exact quickWindowsAux_overlap t c o ho hoc (t.length + 1) 0 wsl le_rfl hw

set_option maxRecDepth 4000 in
/-- Witness for `quick_chunk_overlap_of_windows_kept` on 250 characters with
three windows, all kept. -/
theorem quick_chunk_overlap_of_windows_kept_witness :
    (0 : Int) < 100 ∧ (0 : Int) ≤ 10 ∧ (10 : Int) < 100 ∧
    quickWindows (List.replicate 250 'A') 100 10 =
      some [List.replicate 100 'A', List.replicate 100 'A', List.replicate 70 'A'] ∧
    (∀ w ∈ [List.replicate 100 'A', List.replicate 100 'A', List.replicate 70 'A'],
      50 < (pyStrip w).length) ∧
    (quick_chunk_text (List.replicate 250 'A') 100 10 =
      some [List.replicate 100 'A', List.replicate 100 'A', List.replicate 70 'A'] ∧
    ∀ (i : Nat) (hi : i + 1 <
        [List.replicate 100 'A', List.replicate 100 'A', List.replicate 70 'A'].length),
      ([List.replicate 100 'A', List.replicate 100 'A',
          List.replicate 70 'A'].get ⟨i + 1, hi⟩).take (10 : Int).toNat =
        ([List.replicate 100 'A', List.replicate 100 'A',
          List.replicate 70 'A'].get ⟨i, by omega⟩).drop ((100 - 10 : Int)).toNat) :=
  ⟨by decide, by decide, by decide, by decide, by decide,
    quick_chunk_overlap_of_windows_kept (List.replicate 250 'A') 100 10
      (by decide) (by decide) (by decide) _ (by decide) (by decide)⟩

set_option maxRecDepth 4000 in
/-- Counterexample to claim C3 as stated: with `chunk_size = 60`,
`overlap = 5` on `overlapGapText`, the middle window strips to 20 characters
and is dropped, and the second emitted chunk begins with five spaces while
the first emitted chunk ends with five letters, so consecutive emitted chunks
do not overlap by the configured amount. -/
theorem quick_chunk_overlap_counterexample :
    quick_chunk_text overlapGapText 60 5 = some [gapChunk0, gapChunk1] ∧
    gapChunk1.take 5 ≠ gapChunk0.drop 55 := by
  constructor
  · decide
  · decide

/-- Claim C4 (confirmed): chunking 5000 copies of the letter A with
`chunk_size = 2048`, `overlap = 200` yields exactly the three chunks
`text[0:2048]`, `text[1848:3896]` and `text[3696:5000]`, the last of length
1304, and all three pass the trimmed-length filter. -/
theorem quick_chunk_scenario_A5000 :
    quick_chunk_text (List.replicate 5000 'A') 2048 200 =
      some [pySlice (List.replicate 5000 'A') 0 2048,
            pySlice (List.replicate 5000 'A') 1848 3896,
            pySlice (List.replicate 5000 'A') 3696 5000] ∧
    (pySlice (List.replicate 5000 'A') 3696 5000).length = 1304 ∧
    (∀ ch ∈ [pySlice (List.replicate 5000 'A') 0 2048,
            pySlice (List.replicate 5000 'A') 1848 3896,
            pySlice (List.replicate 5000 'A') 3696 5000], 50 < (pyStrip ch).length) := by
  have e0 : pySlice (List.replicate 5000 'A') 0 2048 = List.replicate 2048 'A' := by
    rw [pySlice_replicate _ _ _ _ (by norm_num) (by norm_num)]
    congr 1
  have e1 : pySlice (List.replicate 5000 'A') 1848 3896 = List.replicate 2048 'A' := by
    rw [pySlice_replicate _ _ _ _ (by norm_num) (by norm_num)]
    congr 1
  have e2 : pySlice (List.replicate 5000 'A') 3696 5000 = List.replicate 1304 'A' := by
    rw [pySlice_replicate _ _ _ _ (by norm_num) (by norm_num)]
    congr 1
  refine ⟨?_, ?_, ?_⟩
  · rw [e0, e1, e2]
    exact quick_chunk_text_replicate_5000
  · rw [e2, List.length_replicate]
  · intro ch hch
    rw [e0, e1, e2] at hch
    simp only [List.mem_cons, List.not_mem_nil, or_false] at hch
    rcases hch with rfl | rfl | rfl <;>
      rw [pyStrip_replicate _ _ (by decide), List.length_replicate] <;> norm_num

lemma wsOk_tail (c : Char) (r : List Char) (h : wsOk (c :: r) = true) : wsOk r = true := by
  cases r with
  | nil => rfl
  | cons c2 r2 =>
    rw [wsOk] at h
    simp only [Bool.and_eq_true] at h
    exact h.2

lemma wsOk_cons_of_not_space (c : Char) (z : List Char) (hc : pyIsSpace c = false)
    (hz : wsOk z = true) : wsOk (c :: z) = true := by
  cases z with
  | nil => simp [wsOk, hc]
  | cons c2 r2 => simp [wsOk, hc, hz]

lemma collapseWSAux_true_head (r : List Char) :
    ∀ c2 r2, collapseWSAux true r = c2 :: r2 → pyIsSpace c2 = false := by
  induction r with
  | nil => intro c2 r2 h; exact absurd h (by simp [collapseWSAux])
  | cons c r ih =>
    intro c2 r2 h
    by_cases hs : pyIsSpace c
    · rw [collapseWSAux, if_pos hs, if_pos rfl] at h
      exact ih c2 r2 h
    · rw [collapseWSAux, if_neg hs] at h
      injection h with h1 h2
      subst h1
      simpa using hs

lemma collapseWSAux_cons_not_space (b : Bool) (c : Char) (r : List Char)
    (h : pyIsSpace c = false) :
    collapseWSAux b (c :: r) = c :: collapseWSAux false r := by
  rw [collapseWSAux, if_neg (by simp [h])]

lemma collapseWSAux_cons_space_false (c : Char) (r : List Char) (h : pyIsSpace c = true) :
    collapseWSAux false (c :: r) = ' ' :: collapseWSAux true r := by
  rw [collapseWSAux, if_pos h, if_neg (by simp)]

lemma wsOk_collapseWSAux (s : List Char) : ∀ b : Bool, wsOk (collapseWSAux b s) = true := by
  induction s with
  | nil => intro b; rfl
  | cons c r ih =>
    intro b
    by_cases hs : pyIsSpace c
    · rw [collapseWSAux, if_pos hs]
      cases b with
      | true => rw [if_pos rfl]; exact ih true
      | false =>
        rw [if_neg (by simp)]
        cases hz : collapseWSAux true r with
        | nil => decide
        | cons c2 r2 =>
          have hc2 : pyIsSpace c2 = false := collapseWSAux_true_head r c2 r2 hz
          rw [wsOk]
          have := ih true
          rw [hz] at this
          simp [hc2, this]
    · rw [collapseWSAux, if_neg hs]
      exact wsOk_cons_of_not_space c _ (by simpa using hs) (ih false)

lemma collapseWSAux_of_wsOk : ∀ s : List Char, wsOk s = true → collapseWSAux false s = s := by
  intro s
  induction s with
  | nil => intro h; rfl
  | cons c r ih =>
    intro h
    by_cases hs : pyIsSpace c
    · cases r with
      | nil =>
        have hc : c = ' ' := by
          simp only [wsOk, Bool.or_eq_true] at h
          rcases h with h | h
          · simp [hs] at h
          · simpa using h
        rw [collapseWSAux, if_pos hs, if_neg (by simp), hc]
        rfl
      | cons c2 r2 =>
        simp only [wsOk, Bool.and_eq_true, Bool.or_eq_true] at h
        obtain ⟨h1, h2⟩ := h
        rcases h1 with h1 | h1
        · simp [hs] at h1
        · obtain ⟨hc, hc2⟩ := h1
          have hceq : c = ' ' := by simpa using hc
          have hc2' : pyIsSpace c2 = false := by simpa using hc2
          have hr : collapseWSAux false (c2 :: r2) = c2 :: r2 := ih h2
          have hr2 : collapseWSAux false r2 = r2 := by
            rw [collapseWSAux_cons_not_space false c2 r2 hc2'] at hr
            simpa using hr
          rw [collapseWSAux_cons_space_false c _ hs,
            collapseWSAux_cons_not_space true c2 r2 hc2', hr2, hceq]
    · rw [collapseWSAux, if_neg hs]
      rw [ih (wsOk_tail c r h)]

lemma wsOk_dropWhile (s : List Char) (h : wsOk s = true) :
    wsOk (s.dropWhile pyIsSpace) = true := by
  induction s with
  | nil => exact h
  | cons c r ih =>
    by_cases hs : pyIsSpace c
    · rw [List.dropWhile_cons_of_pos hs]
      exact ih (wsOk_tail c r h)
    · rwa [List.dropWhile_cons_of_neg hs]

lemma rstrip_head_eq (r : List Char) :
    ∀ x xs, rstrip r = x :: xs → ∃ r2, r = x :: r2 := by
  cases r with
  | nil => intro x xs h; exact absurd h (by simp [rstrip])
  | cons c r2 =>
    intro x xs h
    rw [rstrip] at h
    cases hz : rstrip r2 with
    | nil =>
      rw [hz] at h
      by_cases hs : pyIsSpace c
      · rw [if_pos hs] at h; exact absurd h (by simp)
      · rw [if_neg hs] at h
        injection h with h1 h2
        exact ⟨r2, by rw [h1]⟩
    | cons y ys =>
      rw [hz] at h
      injection h with h1 h2
      exact ⟨r2, by rw [h1]⟩

lemma wsOk_rstrip (s : List Char) (h : wsOk s = true) : wsOk (rstrip s) = true := by
  induction s with
  | nil => exact h
  | cons c r ih =>
    rw [rstrip]
    cases hz : rstrip r with
    | nil =>
      by_cases hs : pyIsSpace c
      · rw [if_pos hs]; rfl
      · rw [if_neg hs]
        simp [wsOk, hs]
    | cons x xs =>
      have htail : wsOk (x :: xs) = true := by
        rw [← hz]; exact ih (wsOk_tail c r h)
      by_cases hs : pyIsSpace c
      · obtain ⟨r2, hr2⟩ := rstrip_head_eq r x xs hz
        subst hr2
        simp only [wsOk, Bool.and_eq_true, Bool.or_eq_true] at h
        obtain ⟨h1, -⟩ := h
        rcases h1 with h1 | h1
        · simp [hs] at h1
        · obtain ⟨hc, hx⟩ := h1
          have hceq : c = ' ' := by simpa using hc
          have hx' : pyIsSpace x = false := by simpa using hx
          simp [wsOk, hceq, hx', htail]
      · exact wsOk_cons_of_not_space c (x :: xs) (by simpa using hs) htail

lemma dropWhile_head_false (p : Char → Bool) (s : List Char) :
    ∀ x r, s.dropWhile p = x :: r → p x = false := by
  induction s with
  | nil => intro x r h; exact absurd h (by simp)
  | cons c cs ih =>
    intro x r h
    by_cases hs : p c
    · rw [List.dropWhile_cons_of_pos hs] at h
      exact ih x r h
    · rw [List.dropWhile_cons_of_neg hs] at h
      injection h with h1 h2
      subst h1
      simpa using hs

lemma rstrip_idempotent (s : List Char) : rstrip (rstrip s) = rstrip s := by
  induction s with
  | nil => rfl
  | cons c r ih =>
    rw [rstrip]
    cases hz : rstrip r with
    | nil =>
      by_cases hs : pyIsSpace c
      · rw [if_pos hs]; rfl
      · rw [if_neg hs]
        rw [rstrip]
        simp [rstrip, hs]
    | cons x xs =>
      rw [rstrip]
      have : rstrip (x :: xs) = x :: xs := by
        rw [← hz]
        rw [hz] at ih ⊢
        exact ih
      rw [this]

lemma pyStrip_idempotent (s : List Char) : pyStrip (pyStrip s) = pyStrip s := by
  rw [pyStrip, pyStrip]
  cases hz : rstrip (s.dropWhile pyIsSpace) with
  | nil => simp [rstrip]
  | cons x xs =>
    obtain ⟨r2, hr2⟩ := rstrip_head_eq _ x xs hz
    have hx : pyIsSpace x = false := dropWhile_head_false pyIsSpace s x r2 hr2
    rw [List.dropWhile_cons_of_neg (by simp [hx])]
    rw [← hz, rstrip_idempotent, hz]

lemma mem_rstrip (s : List Char) (x : Char) (h : x ∈ rstrip s) : x ∈ s := by
  induction s with
  | nil => simp [rstrip] at h
  | cons c r ih =>
    rw [rstrip] at h
    cases hz : rstrip r with
    | nil =>
      rw [hz] at h
      by_cases hs : pyIsSpace c
      · rw [if_pos hs] at h; simp at h
      · rw [if_neg hs] at h
        simp only [List.mem_singleton] at h
        subst h
        exact List.mem_cons_self x r
    | cons y ys =>
      rw [hz] at h
      rcases List.mem_cons.mp h with rfl | hm
      · exact List.mem_cons_self x r
      · exact List.mem_cons_of_mem c (ih (hz ▸ hm))

lemma mem_pyStrip (s : List Char) (x : Char) (h : x ∈ pyStrip s) : x ∈ s := by
  rw [pyStrip] at h
  exact (List.dropWhile_sublist pyIsSpace).mem (mem_rstrip _ x h)

lemma collapseWSAux_space_mem (s : List Char) :
    ∀ (b : Bool) (x : Char), x ∈ collapseWSAux b s → pyIsSpace x = true → x = ' ' := by
  induction s with
  | nil => intro b x h; simp [collapseWSAux] at h
  | cons c r ih =>
    intro b x h hx
    by_cases hs : pyIsSpace c
    · rw [collapseWSAux, if_pos hs] at h
      cases b with
      | true => exact ih true x (by simpa using h) hx
      | false =>
        rw [if_neg (by simp)] at h
        rcases List.mem_cons.mp h with rfl | hm
        · rfl
        · exact ih true x hm hx
    · rw [collapseWSAux, if_neg hs] at h
      rcases List.mem_cons.mp h with rfl | hm
      · simp [hx] at hs
      · exact ih false x hm hx

lemma pySplitlinesAux_no_newline (s : List Char) :
    ∀ acc, (∀ x ∈ s, x ≠ '\n' ∧ x ≠ '\r') →
      pySplitlinesAux s acc = [acc.reverse ++ s] := by
  induction s with
  | nil => intro acc h; simp [pySplitlinesAux]
  | cons c r ih =>
    intro acc h
    have hc := h c (List.mem_cons_self c r)
    have hrec : pySplitlinesAux (c :: r) acc = pySplitlinesAux r (c :: acc) := by
      simp [pySplitlinesAux, hc.1, hc.2]
    rw [hrec, ih (c :: acc) (fun x hx => h x (List.mem_cons_of_mem c hx))]
    simp

lemma pySplitlines_no_newline (s : List Char) (hne : s ≠ [])
    (h : ∀ x ∈ s, x ≠ '\n' ∧ x ≠ '\r') : pySplitlines s = [s] := by
  rw [pySplitlines, if_neg hne, pySplitlinesAux_no_newline s [] h]
  simp

lemma lineFilterStage_shape_ws (keep : List Char → Bool) (t : List Char) :
    wsOk (lineFilterStage keep t) = true := by
  rw [lineFilterStage, pyStrip]
  exact wsOk_rstrip _ (wsOk_dropWhile _ (wsOk_collapseWSAux _ false))

lemma lineFilterStage_no_newline (keep : List Char → Bool) (t : List Char) :
    ∀ x ∈ lineFilterStage keep t, x ≠ '\n' ∧ x ≠ '\r' := by
  intro x hx
  rw [lineFilterStage] at hx
  have hx1 := mem_pyStrip _ x hx
  have hsp := collapseWSAux_space_mem _ false x hx1
  constructor
  · intro he
    subst he
    exact absurd (hsp (by decide)) (by decide)
  · intro he
    subst he
    exact absurd (hsp (by decide)) (by decide)

lemma lineFilterStage_strip_fix (keep : List Char → Bool) (t : List Char) :
    pyStrip (lineFilterStage keep t) = lineFilterStage keep t :=
  pyStrip_idempotent _

lemma lineFilterStage_collapse_fix (keep : List Char → Bool) (t : List Char) :
    collapseWS (lineFilterStage keep t) = lineFilterStage keep t :=
  collapseWSAux_of_wsOk _ (lineFilterStage_shape_ws keep t)

lemma lineFilterStage_reapply (keep : List Char → Bool) (t : List Char) :
    lineFilterStage keep (lineFilterStage keep t) = lineFilterStage keep t ∨
    lineFilterStage keep (lineFilterStage keep t) = [] := by
  by_cases hN : lineFilterStage keep t = []
  · right
    rw [hN]
    rfl
  · have hsplit : pySplitlines (lineFilterStage keep t) = [lineFilterStage keep t] :=
      pySplitlines_no_newline _ hN (lineFilterStage_no_newline keep t)
    by_cases hk : keep (lineFilterStage keep t) = true
    · left
      rw [lineFilterStage, hsplit]
      simp only [List.map_cons, List.map_nil]
      rw [lineFilterStage_strip_fix keep t]
      rw [List.filter_cons, if_pos hk]
      simp only [List.filter_nil]
      rw [show List.intercalate [' '] [lineFilterStage keep t] = lineFilterStage keep t by
        simp [List.intercalate]]
      rw [lineFilterStage_collapse_fix keep t, lineFilterStage_strip_fix keep t]
    · right
      rw [lineFilterStage, hsplit]
      simp only [List.map_cons, List.map_nil]
      rw [lineFilterStage_strip_fix keep t]
      rw [List.filter_cons, if_neg hk]
      simp only [List.filter_nil]
      rfl

/-- Claim C6 (amended): re-applying the line-filtering stage (steps 4-5) of
either policy to its own output yields either the identical string or the
empty string; the original idempotence claim fails because the joined line
can itself fail the policy filter, see the counterexample. -/
theorem clean_lines_reapply_same_or_empty :
    ∀ t : List Char,
      (cleanLinesPermissive (cleanLinesPermissive t) = cleanLinesPermissive t ∨
        cleanLinesPermissive (cleanLinesPermissive t) = []) ∧
      (cleanLinesAggressive (cleanLinesAggressive t) = cleanLinesAggressive t ∨
        cleanLinesAggressive (cleanLinesAggressive t) = []) :=
  fun t => ⟨lineFilterStage_reapply keepLinePermissive t,
    lineFilterStage_reapply keepLineAggressive t⟩

/-- Witness for `clean_lines_reapply_same_or_empty` on a concrete text. -/
theorem clean_lines_reapply_witness :
    cleanLinesPermissive (cleanLinesPermissive ("ab cd").toList) =
        cleanLinesPermissive ("ab cd").toList ∨
      cleanLinesPermissive (cleanLinesPermissive ("ab cd").toList) = [] :=
  (clean_lines_reapply_same_or_empty (("ab cd").toList)).1

set_option maxRecDepth 4000 in
/-- Counterexample to claim C6 as stated: each line of `ratioBoundaryText`
sits exactly on the permissive alnum-ratio boundary and is kept, but the
space-joined output of the first pass fails the ratio test on the second
pass, which returns the empty string instead of the same string. -/
theorem clean_lines_idempotence_counterexample :
    cleanLinesPermissive ratioBoundaryText ≠ [] ∧
    cleanLinesPermissive (cleanLinesPermissive ratioBoundaryText) = [] := by
  constructor
  · decide
  · decide

set_option maxRecDepth 4000 in
/-- Claim C8 (confirmed): the permissive line filter retains
`Total revenue was $265.6 billion for the year` and discards both
`12/31 34.5% 99.1` and `***`. -/
theorem permissive_filter_examples :
    keepLinePermissive ("Total revenue was $265.6 billion for the year").toList = true ∧
    cleanLinesPermissive ("Total revenue was $265.6 billion for the year").toList =
      ("Total revenue was $265.6 billion for the year").toList ∧
    keepLinePermissive ("12/31 34.5% 99.1").toList = false ∧
    cleanLinesPermissive ("12/31 34.5% 99.1").toList = [] ∧
    keepLinePermissive ("***").toList = false ∧
    cleanLinesPermissive ("***").toList = [] := by
  refine ⟨by decide, by decide, by decide, by decide, by decide, by decide⟩

set_option maxRecDepth 4000 in
/-- Claim C9 (confirmed): the aggressive line filter discards exactly the
lines whose digit count is positive and at least `2 * max 1 letters`, or
whose length is below 40; it discards the numeric table remnant and retains
the narrative sentence of the claim. -/
theorem aggressive_filter_characterization :
    (∀ line : List Char, keepLineAggressive line = false ↔
      ((0 < countDigit line ∧ 2 * max 1 (countAlpha line) ≤ countDigit line) ∨
        line.length < 40)) ∧
    cleanLinesAggressive ("Revenue 2021 2020 2019 1234 5678 9012").toList = [] ∧
    cleanLinesAggressive
        ("Management believes the increase in revenue reflects strong demand").toList =
      ("Management believes the increase in revenue reflects strong demand").toList := by
  refine ⟨?_, by decide, by decide⟩
  intro line
  rw [keepLineAggressive]
  by_cases h0 : line.isEmpty
  · rw [if_pos h0]
    have : line = [] := by simpa using h0
    subst this
    simp
  · rw [if_neg h0]
    by_cases h1 : 0 < countDigit line ∧ 2 * max 1 (countAlpha line) ≤ countDigit line
    · rw [if_pos h1]
      simp [h1]
    · rw [if_neg h1]
      by_cases h2 : line.length < 40
      · rw [if_pos h2]
        simp [h1, h2]
      · rw [if_neg h2]
        simp [h1, h2]

/-- Witness for `aggressive_filter_characterization` on a short line. -/
theorem aggressive_filter_characterization_witness :
    keepLineAggressive ("ab").toList = false :=
  (aggressive_filter_characterization.1 (("ab").toList)).mpr (Or.inr (by decide))

lemma pyReplaceAux_no_occurrence (pat rep : List Char) :
    ∀ (fuel : Nat) (s : List Char), ¬ pat <:+: s → pyReplaceAux pat rep fuel s = s := by
  intro fuel
  induction fuel with
  | zero => intro s h; cases s <;> rfl
  | succ f ih =>
    intro s h
    cases s with
    | nil => rfl
    | cons c r =>
      have hpre : pat.isPrefixOf (c :: r) = false := by
        rw [Bool.eq_false_iff]
        intro hp
        exact h (List.IsPrefix.isInfix (List.isPrefixOf_iff_prefix.mp hp))
      rw [pyReplaceAux, if_neg (by simp [hpre])]
      rw [ih r (fun hi => h (List.infix_cons hi))]

lemma pyReplace_no_occurrence (pat rep s : List Char) (h : ¬ pat <:+: s) :
    pyReplace pat rep s = s :=
  pyReplaceAux_no_occurrence pat rep s.length s h

lemma decodeEntities_no_occurrence (table : List (List Char × List Char)) :
    ∀ s : List Char, (∀ kv ∈ table, ¬ kv.1 <:+: s) → decodeEntities table s = s := by
  induction table with
  | nil => intro s h; rfl
  | cons kv rest ih =>
    intro s h
    rw [decodeEntities, List.foldl_cons,
      pyReplace_no_occurrence kv.1 kv.2 s (h kv (List.mem_cons_self kv rest))]
    exact ih s (fun kv2 hm => h kv2 (List.mem_cons_of_mem kv hm))

/-- Claim C7 (amended): both policy tables decode the nine shared entities
(non-breaking space, ampersand, angle brackets, double quote, right single
quote, left and right double smart quotes, en dash); the permissive table
additionally decodes the em dash, which the aggressive variant leaves
unchanged; the left single smart quote entity is decoded by neither; and any
string containing none of a table's entities is returned unchanged. -/
theorem entity_decode_tables :
    (∀ kv ∈ entityTablePermissive, decodeEntitiesPermissive kv.1 = kv.2) ∧
    (∀ kv ∈ entityTableAggressive, decodeEntitiesAggressive kv.1 = kv.2) ∧
    (∀ kv ∈ entityTableAggressive, kv ∈ entityTablePermissive) ∧
    decodeEntitiesAggressive (("&#x2014;").toList) = ("&#x2014;").toList ∧
    decodeEntitiesPermissive (("&#8216;").toList) = ("&#8216;").toList ∧
    decodeEntitiesAggressive (("&#8216;").toList) = ("&#8216;").toList ∧
    (∀ s : List Char, (∀ kv ∈ entityTablePermissive, ¬ kv.1 <:+: s) →
      decodeEntitiesPermissive s = s) ∧
    (∀ s : List Char, (∀ kv ∈ entityTableAggressive, ¬ kv.1 <:+: s) →
      decodeEntitiesAggressive s = s) :=
  ⟨by decide, by decide, by decide, by decide, by decide, by decide,
    fun s h => decodeEntities_no_occurrence entityTablePermissive s h,
    fun s h => decodeEntities_no_occurrence entityTableAggressive s h⟩

/-- Witness for `entity_decode_tables` on an entity-free string. -/
theorem entity_decode_tables_witness :
    decodeEntitiesPermissive (("hello world").toList) = ("hello world").toList :=
  entity_decode_tables.2.2.2.2.2.2.1 (("hello world").toList) (by decide)

/-- Counterexample to claim C7 as stated: the two variants do not decode the
same set — the aggressive variant leaves the em-dash entity unchanged — and
neither variant decodes the left single smart quote entity. -/
theorem entity_decode_counterexample :
    decodeEntitiesPermissive (("&#x2014;").toList) = ['-'] ∧
    decodeEntitiesAggressive (("&#x2014;").toList) ≠ ['-'] ∧
    decodeEntitiesPermissive (("&#8216;").toList) ≠ [Char.ofNat 39] ∧
    decodeEntitiesAggressive (("&#8216;").toList) ≠ [Char.ofNat 39] := by
  refine ⟨by decide, by decide, by decide, by decide⟩
